import Mathlib

/-!
Shallow embedding of `src/main.py` (PancakeFlippingSort): the UCS and A*
searches over pancake stacks, their frontier/closed-list management, the
"adjacent pancake" heuristic, and the external input validator.

Python lists of ints become `List Int`; the in-place stable `list.sort`
(CPython's Timsort) becomes a structurally recursive stable insertion sort
(`stable_sort` below) — a stable sort's output is uniquely determined by the
comparison key and the input order, so the two agree on every input; the
unbounded `while True` loop becomes a fuel-indexed loop returning `Option`.
-/

namespace PancakeFlippingSort

/-- A search-tree node: `UcsNode` / `AStarNode` in the source.
`heuristic_cost` is 0 for UCS nodes, and the value stored at construction
for A* nodes (`AStarNode.__init__`). Node equality in the source
(`UcsNode.__eq__`) compares only `stack`; membership tests below use that. -/
structure Node where
  stack : List Int
  backwards_cost : Nat
  path : List (List Int)
  heuristic_cost : Nat
deriving DecidableEq

/-- `AStarNode.total_cost = heuristic_cost + backwards_cost`. -/
def Node.total_cost (n : Node) : Nat := n.heuristic_cost + n.backwards_cost

/-- `Ucs.flip`: `stack[:n][::-1] + stack[n:]` — reverse the first `n` elements. -/
def flip (stack : List Int) (n : Nat) : List Int :=
  (stack.take n).reverse ++ stack.drop n

/-- `Astar.calculate_heuristic_value`: walk the adjacent pairs, counting the
pairs whose values are not consecutive in either direction. -/
def calculate_heuristic_value : List Int → Nat
  | current_pancake :: next :: rest =>
      (if next ≠ current_pancake - 1 ∧ next ≠ current_pancake + 1 then 1 else 0)
        + calculate_heuristic_value (next :: rest)
  | _ => 0

/-- Stable insertion: `x` is placed after every prefix element `y` with
`le y x`.  Building block of `stable_sort`. -/
def stable_insert (le : α → α → Bool) (x : α) : List α → List α
  | [] => [x]
  | y :: ys => if le y x then y :: stable_insert le x ys else x :: y :: ys

/-- Model of Python's stable in-place `list.sort`: a stable insertion sort.
Any two stable sorts agree (equal-key elements keep their input order and
the result is sorted), so this computes exactly what Timsort computes. -/
def stable_sort (le : α → α → Bool) (l : List α) : List α :=
  l.foldl (fun acc x => stable_insert le x acc) []

/-- The mutable search object's state: `self.expanded` (open list),
`self.traversed` (closed list), `self.nodes_expanded` (generation counter,
initialised to 1 in `Ucs.__init__`). -/
structure SearchState where
  expanded : List Node
  traversed : List Node
  nodes_expanded : Nat
deriving DecidableEq

/-- Python `node in list` under `UcsNode.__eq__`: some member has this stack. -/
def stackMem (l : List Node) (s : List Int) : Bool :=
  l.any (fun n => decide (n.stack = s))

/-- `Ucs.get_node_by_stack`: first node in the list with the given stack
(`none` models the `return 0` not-found case, never hit by the callers). -/
def get_node_by_stack (expanded : List Node) (stack : List Int) : Option Node :=
  expanded.find? (fun node => decide (node.stack = stack))

/-- The merge policy applied to one generated child inside the expansion loop:
fresh states are appended; states already closed are dropped; a state already
in the frontier is replaced only when the new key is strictly smaller
(`new_node.backwards_cost < old_node.backwards_cost` in UCS,
`new_node.total_cost < old_node.total_cost` in A*; `key` abstracts the two). -/
def merge_new_node (key : Node → Nat) (st : SearchState) (new_node : Node) :
    SearchState :=
  if !stackMem st.expanded new_node.stack && !stackMem st.traversed new_node.stack then
    { st with expanded := st.expanded ++ [new_node] }
  else if stackMem st.expanded new_node.stack then
    match get_node_by_stack st.expanded new_node.stack with
    | some old_node =>
        if key new_node < key old_node then
          { st with expanded :=
              (st.expanded.eraseP (fun n => decide (n.stack = old_node.stack)))
                ++ [new_node] }
        else st
    | none => st
  else st

/-- The `for i in range(2, len(current_node.stack) + 1)` expansion loop:
each flip child bumps `nodes_expanded` and is merged into the frontier.
`hfun` is the heuristic stored in new nodes (constant 0 for UCS). -/
def expand_node (key : Node → Nat) (hfun : List Int → Nat) (current : Node)
    (st : SearchState) : SearchState :=
  (List.range' 2 (current.stack.length - 1)).foldl
    (fun st i =>
      let stack := flip current.stack i
      let path := current.path ++ [stack]
      let new_node : Node := ⟨stack, current.backwards_cost + 1, path, hfun stack⟩
      merge_new_node key { st with nodes_expanded := st.nodes_expanded + 1 } new_node)
    st

/-- Outcome of one iteration of the `while True` loop. -/
inductive StepResult where
  | found (node : Node) (st : SearchState)
  | next (st : SearchState)
  | fail

/-- One iteration of `start_search`'s loop: stable-sort the frontier by `key`
(`get_lowest_cost_node` sorts `self.expanded` in place and takes element 0),
pop the head (`self.expanded.remove(current_node)` removes exactly it), close
it, return it if it is the goal, otherwise expand it.  An empty frontier is
the `IndexError` the Python would raise: `.fail`. -/
def search_step (key : Node → Nat) (hfun : List Int → Nat)
    (goal_stack : List Int) (st : SearchState) : StepResult :=
  match stable_sort (fun a b => decide (key a ≤ key b)) st.expanded with
  | [] => .fail
  | current :: rest =>
      let st1 : SearchState :=
        { st with expanded := rest, traversed := st.traversed ++ [current] }
      if current.stack = goal_stack then .found current st1
      else .next (expand_node key hfun current st1)

/-- The `while True` loop, with fuel. -/
def search_loop (key : Node → Nat) (hfun : List Int → Nat)
    (goal_stack : List Int) : Nat → SearchState → Option (Node × SearchState)
  | 0, _ => none
  | fuel + 1, st =>
      match search_step key hfun goal_stack st with
      | .found node st1 => some (node, st1)
      | .next st1 => search_loop key hfun goal_stack fuel st1
      | .fail => none

/-- States at the head of the `while True` loop, `k` iterations in (`none`
once the run has stopped, via goal or crash, before `k` iterations). -/
def run_states (key : Node → Nat) (hfun : List Int → Nat)
    (goal_stack : List Int) : Nat → SearchState → Option SearchState
  | 0, st => some st
  | k + 1, st =>
      match search_step key hfun goal_stack st with
      | .next st1 => run_states key hfun goal_stack k st1
      | _ => none

/-- UCS sort key: `lambda x: x.backwards_cost`. -/
def ucs_key (n : Node) : Nat := n.backwards_cost

/-- UCS stores no heuristic; children carry 0. -/
def ucs_hfun (_ : List Int) : Nat := 0

/-- A* sort key: `lambda x: x.total_cost`. -/
def astar_key (n : Node) : Nat := n.total_cost

/-- `self.goal_stack = sorted(self.root.stack)`. -/
def goal_of (stack : List Int) : List Int :=
  stable_sort (fun a b => decide (a ≤ b)) stack

/-- `Ucs.__init__` + the first line of `start_search`: frontier holds the
root, closed list empty, counter 1. -/
def init_state (root : Node) : SearchState := ⟨[root], [], 1⟩

/-- The root `UcsNode(starting_stack, 0, [starting_stack])`. -/
def ucs_root (starting_stack : List Int) : Node :=
  ⟨starting_stack, 0, [starting_stack], 0⟩

/-- The root `AStarNode(starting_stack, 0, [starting_stack], h(starting_stack))`. -/
def astar_root (starting_stack : List Int) : Node :=
  ⟨starting_stack, 0, [starting_stack], calculate_heuristic_value starting_stack⟩

/-- `Ucs(starting_stack).start_search()`, fuel-indexed. -/
def ucs_start_search (starting_stack : List Int) (fuel : Nat) :
    Option (Node × SearchState) :=
  search_loop ucs_key ucs_hfun (goal_of starting_stack) fuel
    (init_state (ucs_root starting_stack))

/-- `Astar(starting_stack).start_search()`, fuel-indexed. -/
def astar_start_search (starting_stack : List Int) (fuel : Nat) :
    Option (Node × SearchState) :=
  search_loop astar_key calculate_heuristic_value (goal_of starting_stack) fuel
    (init_state (astar_root starting_stack))

/-- `FlippingSort.is_stack_valid`: the external validator — no duplicates,
and every integer 1..N present. -/
def is_stack_valid (starting_stack : List Int) : Bool :=
  if starting_stack.length ≠ starting_stack.dedup.length then false
  else (List.range' 1 starting_stack.length).all
    (fun i => starting_stack.contains (i : Int))

/-! Specification-level notions used to state the claims. -/

/-- The ascending stack `[1, 2, …, N]`. -/
def ascSeq (N : Nat) : List Int :=
  (List.range N).map (fun i : Nat => (i : Int) + 1)

/-- One legal pancake move between states: some flip length `k ∈ [2, N]`. -/
def FlipStep (s t : List Int) : Prop :=
  ∃ k, 2 ≤ k ∧ k ≤ s.length ∧ t = flip s k

/-- `ReachN s m t`: `t` is reachable from `s` in exactly `m` flips. -/
inductive ReachN (s : List Int) : Nat → List Int → Prop
  | refl : ReachN s 0 s
  | snoc {m : Nat} {u t : List Int} :
      ReachN s m u → FlipStep u t → ReachN s (m + 1) t

/-- A well-formed search node of the run rooted at `P`: its path starts at
`P`, ends at its own stack, follows flip moves, has length `cost + 1`, its
stack is a rearrangement of `P`, and its stored heuristic is `hfun` of its
stack. -/
structure ValidNode (hfun : List Int → Nat) (P : List Int) (n : Node) : Prop where
  head : n.path.head? = some P
  last : n.path.getLast? = some n.stack
  len : n.path.length = n.backwards_cost + 1
  chain : n.path.Chain' FlipStep
  sperm : n.stack.Perm P
  hval : n.heuristic_cost = hfun n.stack

/-- `IsMinReach P t d`: `d` is the minimal number of flips from `P` to `t`. -/
def IsMinReach (P t : List Int) (d : Nat) : Prop :=
  ReachN P d t ∧ ∀ m, ReachN P m t → d ≤ m

/-- Indicator of one adjacency gap (the `if` inside
`calculate_heuristic_value`). -/
def gap_ind (u v : Int) : Nat := if v ≠ u - 1 ∧ v ≠ u + 1 then 1 else 0

/-- The child node built for flip length `i` inside the expansion loop. -/
def mk_child (hfun : List Int → Nat) (current : Node) (i : Nat) : Node :=
  ⟨flip current.stack i, current.backwards_cost + 1,
    current.path ++ [flip current.stack i], hfun (flip current.stack i)⟩

/-- All parts of the loop invariant except the frontier-cover property
(which is only partially established in the middle of an expansion). -/
structure PreInv (hfun : List Int → Nat) (P goal : List Int) (st : SearchState) :
    Prop where
  vExp : ∀ n ∈ st.expanded, ValidNode hfun P n
  vTrav : ∀ n ∈ st.traversed, ValidNode hfun P n
  nodupExp : st.expanded.Pairwise (fun a b => a.stack ≠ b.stack)
  nodupTrav : st.traversed.Pairwise (fun a b => a.stack ≠ b.stack)
  disj : ∀ n ∈ st.expanded, ∀ t ∈ st.traversed, n.stack ≠ t.stack
  travNotGoal : ∀ t ∈ st.traversed, t.stack ≠ goal
  optTrav : ∀ t ∈ st.traversed, ∀ m, ReachN P m t.stack → t.backwards_cost ≤ m
  rootMem : (∃ t ∈ st.traversed, t.stack = P) ∨
      (∃ n ∈ st.expanded, n.stack = P ∧ n.backwards_cost = 0)

/-- The loop invariant of both searches, rooted at `P` with goal `goal`:
`PreInv` plus the frontier-cover property — every flip child of a closed
state is either itself closed or has a frontier node at most one step more
expensive than its closed parent. -/
structure Inv (hfun : List Int → Nat) (P goal : List Int) (st : SearchState)
    extends PreInv hfun P goal st : Prop where
  frontierOpt : ∀ t ∈ st.traversed, ∀ s, FlipStep t.stack s →
      (∃ u ∈ st.traversed, u.stack = s) ∨
      ∃ n ∈ st.expanded, n.stack = s ∧ n.backwards_cost ≤ t.backwards_cost + 1

end PancakeFlippingSort

namespace PancakeFlippingSort

/-! ### Heuristic: the gap count and its properties -/

/-- The two sides of one adjacency test agree with the absolute-difference
formulation. -/
theorem gap_cond_iff (a b : Int) : (b ≠ a - 1 ∧ b ≠ a + 1) ↔ ¬ |a - b| = 1 := by
  rw [abs_eq (by norm_num : (0 : Int) ≤ 1)]
  omega

/-- `calculate_heuristic_value` counts the adjacent pairs at absolute
difference ≠ 1. -/
theorem calc_heuristic_eq_gap_count (s : List Int) :
    calculate_heuristic_value s =
      (s.zip s.tail).countP (fun p => decide (¬ |p.1 - p.2| = 1)) := by
  induction s with
  | nil => rfl
  | cons a t ih =>
      cases t with
      | nil => rfl
      | cons b r =>
          show (if b ≠ a - 1 ∧ b ≠ a + 1 then 1 else 0)
              + calculate_heuristic_value (b :: r) = _
          rw [ih]
          simp only [List.tail_cons, List.zip_cons_cons, List.countP_cons]
          by_cases h : (b ≠ a - 1 ∧ b ≠ a + 1)
          · have hd : (decide (¬ |a - b| = 1)) = true :=
              decide_eq_true ((gap_cond_iff a b).mp h)
            rw [if_pos h]
            simp only [hd, eq_self_iff_true, if_true]
            omega
          · have hd : (decide (¬ |a - b| = 1)) = false := by
              rw [decide_eq_false_iff_not]
              intro hc
              exact h ((gap_cond_iff a b).mpr hc)
            rw [if_neg h]
            simp only [hd, Bool.false_eq_true, if_false]
            omega

/-- C5: for every stack `s`, `calculate_heuristic_value s` is the number of
adjacent positions whose values differ by something other than 1; in
particular it is 0 on `[1,2,3,4]`, 0 on `[4,3,2,1]` and 2 on `[1,3,2,4]`. -/
theorem c5_heuristic_is_adjacency_gap_count :
    (∀ s : List Int,
        calculate_heuristic_value s =
          (s.zip s.tail).countP (fun p => decide (¬ |p.1 - p.2| = 1))) ∧
    calculate_heuristic_value [1, 2, 3, 4] = 0 ∧
    calculate_heuristic_value [4, 3, 2, 1] = 0 ∧
    calculate_heuristic_value [1, 3, 2, 4] = 2 :=
  ⟨calc_heuristic_eq_gap_count, by decide, by decide, by decide⟩

/-! ### The flip operator -/

/-- A flip of the first `k ≤ len s` elements undoes itself. -/
theorem flip_flip (s : List Int) (k : Nat) (h2 : k ≤ s.length) :
    flip (flip s k) k = s := by
  have hlen : (s.take k).reverse.length = k := by
    rw [List.length_reverse, List.length_take]
    omega
  show flip ((s.take k).reverse ++ s.drop k) k = s
  unfold flip
  rw [List.take_left' hlen, List.drop_left' hlen, List.reverse_reverse,
    List.take_append_drop]

/-- A flip preserves the multiset of elements. -/
theorem flip_perm (s : List Int) (k : Nat) : (flip s k).Perm s := by
  show ((s.take k).reverse ++ s.drop k).Perm s
  have h := (List.reverse_perm (s.take k)).append_right (s.drop k)
  rw [List.take_append_drop] at h
  exact h

/-- A flip preserves the length of the stack. -/
theorem flip_length (s : List Int) (k : Nat) : (flip s k).length = s.length :=
  (flip_perm s k).length_eq

/-- `FlipStep` is symmetric: each prefix-reversal edge is its own inverse. -/
theorem FlipStep.symm {s t : List Int} (h : FlipStep s t) : FlipStep t s := by
  obtain ⟨k, hk2, hkl, rfl⟩ := h
  exact ⟨k, hk2, by rw [flip_length]; exact hkl, (flip_flip s k hkl).symm⟩

/-- C10: for `k ≤ len s` (only `k ≥ 1` is even mentioned by the claim), a
flip undoes itself, and a flip preserves the multiset of elements. -/
theorem c10_flip_involution (s : List Int) (k : Nat) (_h1 : 1 ≤ k)
    (h2 : k ≤ s.length) : flip (flip s k) k = s ∧ (flip s k).Perm s :=
  ⟨flip_flip s k h2, flip_perm s k⟩

/-- Witness for C10 at `s = [2, 1, 3]`, `k = 2`. -/
theorem c10_flip_involution_witness :
    (1 ≤ 2 ∧ 2 ≤ ([2, 1, 3] : List Int).length) ∧
      (flip (flip [2, 1, 3] 2) 2 = [2, 1, 3] ∧
        (flip ([2, 1, 3] : List Int) 2).Perm [2, 1, 3]) :=
  ⟨by decide, c10_flip_involution [2, 1, 3] 2 (by decide) (by decide)⟩

/-! ### Properties of the stable sort -/

/-- Stable insertion builds a permutation of `x :: l`. -/
theorem stable_insert_perm (le : α → α → Bool) (x : α) :
    ∀ l : List α, (stable_insert le x l).Perm (x :: l)
  | [] => List.Perm.refl _
  | y :: ys => by
      unfold stable_insert
      by_cases h : le y x
      · rw [if_pos h]
        exact ((stable_insert_perm le x ys).cons y).trans (List.Perm.swap x y ys)
      · rw [if_neg h]

/-- Generalised permutation property of the sorting fold. -/
theorem stable_sort_perm_aux (le : α → α → Bool) :
    ∀ (l acc : List α),
      (l.foldl (fun acc x => stable_insert le x acc) acc).Perm (acc ++ l)
  | [], acc => by simp
  | x :: xs, acc => by
      show (xs.foldl (fun acc x => stable_insert le x acc)
        (stable_insert le x acc)).Perm _
      have h1 := stable_sort_perm_aux le xs (stable_insert le x acc)
      have h2 := (stable_insert_perm le x acc).append_right xs
      exact (h1.trans h2).trans List.perm_middle.symm

/-- `stable_sort` permutes its input. -/
theorem stable_sort_perm (le : α → α → Bool) (l : List α) :
    (stable_sort le l).Perm l := by
  have h := stable_sort_perm_aux le l []
  simpa [stable_sort] using h

/-- Stable insertion into a `le`-sorted list is `le`-sorted. -/
theorem stable_insert_pairwise (le : α → α → Bool)
    (htrans : ∀ a b c, le a b = true → le b c = true → le a c = true)
    (htotal : ∀ a b, le a b = true ∨ le b a = true) (x : α) :
    ∀ l : List α, l.Pairwise (fun a b => le a b = true) →
      (stable_insert le x l).Pairwise (fun a b => le a b = true)
  | [], _ => List.pairwise_singleton _ x
  | y :: ys, hp => by
      rw [List.pairwise_cons] at hp
      unfold stable_insert
      by_cases h : le y x
      · rw [if_pos h]
        rw [List.pairwise_cons]
        refine ⟨?_, stable_insert_pairwise le htrans htotal x ys hp.2⟩
        intro b hb
        rcases List.mem_cons.mp (((stable_insert_perm le x ys).mem_iff).mp hb) with
          rfl | hby
        · exact h
        · exact hp.1 b hby
      · rw [if_neg h]
        have hxy : le x y = true := by
          rcases htotal x y with hxy | hyx
          · exact hxy
          · exact absurd hyx h
        rw [List.pairwise_cons]
        constructor
        · intro b hb
          rcases List.mem_cons.mp hb with rfl | hby
          · exact hxy
          · exact htrans x y b hxy (hp.1 b hby)
        · rw [List.pairwise_cons]
          exact hp

/-- Generalised sortedness of the sorting fold. -/
theorem stable_sort_pairwise_aux (le : α → α → Bool)
    (htrans : ∀ a b c, le a b = true → le b c = true → le a c = true)
    (htotal : ∀ a b, le a b = true ∨ le b a = true) :
    ∀ (l acc : List α), acc.Pairwise (fun a b => le a b = true) →
      (l.foldl (fun acc x => stable_insert le x acc) acc).Pairwise
        (fun a b => le a b = true)
  | [], _, hacc => hacc
  | x :: xs, acc, hacc =>
      stable_sort_pairwise_aux le htrans htotal xs (stable_insert le x acc)
        (stable_insert_pairwise le htrans htotal x acc hacc)

/-- `stable_sort` sorts (for a transitive and total comparison). -/
theorem stable_sort_pairwise (le : α → α → Bool)
    (htrans : ∀ a b c, le a b = true → le b c = true → le a c = true)
    (htotal : ∀ a b, le a b = true ∨ le b a = true) (l : List α) :
    (stable_sort le l).Pairwise (fun a b => le a b = true) :=
  stable_sort_pairwise_aux le htrans htotal l [] (List.Pairwise.nil)

/-- Sorting by a `Nat`-valued key: the head of the result is minimal. -/
theorem stable_sort_key_head_min (key : α → Nat) (l : List α) (c : α) (rest : List α)
    (h : stable_sort (fun a b => decide (key a ≤ key b)) l = c :: rest) :
    ∀ n ∈ l, key c ≤ key n := by
  have hsorted := stable_sort_pairwise (fun a b => decide (key a ≤ key b))
    (fun a b cc hab hbc => decide_eq_true
      (Nat.le_trans (of_decide_eq_true hab) (of_decide_eq_true hbc)))
    (fun a b => by
      rcases Nat.le_total (key a) (key b) with hle | hle
      · exact Or.inl (decide_eq_true hle)
      · exact Or.inr (decide_eq_true hle)) l
  rw [h, List.pairwise_cons] at hsorted
  intro n hn
  have hperm := stable_sort_perm (fun a b => decide (key a ≤ key b)) l
  rw [h] at hperm
  rcases List.mem_cons.mp (hperm.symm.subset hn) with rfl | hmem
  · exact Nat.le_refl _
  · exact of_decide_eq_true (hsorted.1 n hmem)

/-! ### Reachability by flips -/

/-- Concatenate reachability chains (second chain first, for the
induction). -/
theorem ReachN.trans' : ∀ {m' : Nat} {u t : List Int}, ReachN u m' t →
    ∀ {m : Nat} {s : List Int}, ReachN s m u → ReachN s (m + m') t := by
  intro m' u t h2
  induction h2 with
  | refl =>
      intro m s h1
      exact h1
  | snoc hr hstep ih =>
      intro m s h1
      exact ReachN.snoc (ih h1) hstep

/-- Concatenate reachability chains. -/
theorem ReachN.trans {m m' : Nat} {s u t : List Int} (h1 : ReachN s m u)
    (h2 : ReachN u m' t) : ReachN s (m + m') t :=
  ReachN.trans' h2 h1

/-- Prepend a flip to a reachability chain. -/
theorem ReachN.cons {m : Nat} {s u t : List Int} (h : FlipStep s u)
    (hr : ReachN u m t) : ReachN s (m + 1) t := by
  have h1 : ReachN s 1 u := ReachN.snoc ReachN.refl h
  have h2 := ReachN.trans h1 hr
  rwa [Nat.add_comm] at h2

/-- Reachable states are rearrangements of the start state. -/
theorem ReachN.perm {m : Nat} {s t : List Int} (h : ReachN s m t) : t.Perm s := by
  induction h with
  | refl => exact List.Perm.refl s
  | snoc hr hstep ih =>
      obtain ⟨k, _, _, rfl⟩ := hstep
      exact (flip_perm _ k).trans ih

/-- A flip-chained path of length `len` witnesses reachability in
`len - 1` moves. -/
theorem chain_reach : ∀ (p : List (List Int)), p.Chain' FlipStep →
    ∀ a b, p.head? = some a → p.getLast? = some b → ReachN a (p.length - 1) b
  | [], _, a, b, ha, _ => by simp at ha
  | [x], _, a, b, ha, hb => by
      simp only [List.head?_cons, Option.some_inj] at ha
      simp only [List.getLast?_singleton, Option.some_inj] at hb
      rw [← ha, ← hb]
      exact ReachN.refl
  | x :: y :: rest, hchain, a, b, ha, hb => by
      simp only [List.head?_cons, Option.some_inj] at ha
      rw [List.chain'_cons] at hchain
      rw [List.getLast?_cons_cons] at hb
      have hrec := chain_reach (y :: rest) hchain.2 y b rfl hb
      have hstep : FlipStep a y := ha ▸ hchain.1
      have hall := ReachN.cons hstep hrec
      simpa using hall

/-- A valid node's cost is realised by an actual flip sequence from `P` to
its stack. -/
theorem ValidNode.reach {hfun : List Int → Nat} {P : List Int} {n : Node}
    (h : ValidNode hfun P n) : ReachN P n.backwards_cost n.stack := by
  have := chain_reach n.path h.chain P n.stack h.head h.last
  rw [h.len] at this
  simpa using this

/-! ### Consistency of the adjacency-gap heuristic -/

/-- The gap indicator is symmetric in its arguments. -/
theorem gap_ind_symm (u v : Int) : gap_ind u v = gap_ind v u := by
  unfold gap_ind
  have h : (v ≠ u - 1 ∧ v ≠ u + 1) ↔ (u ≠ v - 1 ∧ u ≠ v + 1) := by omega
  rw [if_congr h rfl rfl]

/-- The gap indicator is at most 1. -/
theorem gap_ind_le_one (u v : Int) : gap_ind u v ≤ 1 := by
  unfold gap_ind
  split
  · exact Nat.le_refl 1
  · exact Nat.zero_le 1

/-- The heuristic of a two-element cons unfolds to a gap indicator. -/
theorem calc_heuristic_cons_cons (a b : Int) (r : List Int) :
    calculate_heuristic_value (a :: b :: r) =
      gap_ind a b + calculate_heuristic_value (b :: r) := rfl

/-- Splitting the gap count at an interior element. -/
theorem calc_heuristic_append_cons :
    ∀ (A : List Int) (x : Int) (B : List Int),
      calculate_heuristic_value (A ++ x :: B) =
        calculate_heuristic_value (A ++ [x]) + calculate_heuristic_value (x :: B)
  | [], x, B => by simp [calculate_heuristic_value]
  | [a], x, B => by
      show calculate_heuristic_value (a :: x :: B) = _
      rw [calc_heuristic_cons_cons]
      show _ = gap_ind a x + calculate_heuristic_value [x] + _
      show _ = gap_ind a x + 0 + _
      omega
  | a :: a' :: A', x, B => by
      show calculate_heuristic_value (a :: a' :: (A' ++ x :: B)) = _
      rw [calc_heuristic_cons_cons]
      have ih := calc_heuristic_append_cons (a' :: A') x B
      rw [show (a' :: A') ++ x :: B = a' :: (A' ++ x :: B) from rfl] at ih
      rw [ih]
      show _ = calculate_heuristic_value (a :: a' :: (A' ++ [x])) + _
      rw [calc_heuristic_cons_cons]
      rw [show (a' :: A') ++ [x] = a' :: (A' ++ [x]) from rfl]
      omega

/-- Appending one element adds the junction gap. -/
theorem calc_heuristic_snoc (l : List Int) (x : Int) :
    calculate_heuristic_value (l ++ [x]) =
      calculate_heuristic_value l +
        (match l.getLast? with
         | some u => gap_ind u x
         | none => 0) := by
  induction l with
  | nil => rfl
  | cons a t ih =>
      cases t with
      | nil =>
          show calculate_heuristic_value [a, x] = _
          rw [calc_heuristic_cons_cons]
          show gap_ind a x + 0 = _
          simp [calculate_heuristic_value]
      | cons b r =>
          show calculate_heuristic_value (a :: b :: (r ++ [x])) = _
          rw [calc_heuristic_cons_cons]
          rw [show b :: (r ++ [x]) = (b :: r) ++ [x] from rfl, ih]
          rw [calc_heuristic_cons_cons, List.getLast?_cons_cons]
          omega

/-- Reversal preserves the gap count. -/
theorem calc_heuristic_reverse (l : List Int) :
    calculate_heuristic_value l.reverse = calculate_heuristic_value l := by
  induction l with
  | nil => rfl
  | cons a t ih =>
      rw [List.reverse_cons, calc_heuristic_snoc, ih, List.getLast?_reverse]
      cases t with
      | nil => rfl
      | cons b r =>
          rw [calc_heuristic_cons_cons]
          show _ + gap_ind b a = _
          rw [gap_ind_symm b a]
          omega

/-- Consistency of the heuristic: one flip changes the gap count by at most
one (forward direction; the backward one follows since flips invert). -/
theorem calc_heuristic_flip (s : List Int) (k : Nat) (h2 : 2 ≤ k)
    (hk : k ≤ s.length) :
    calculate_heuristic_value s ≤ calculate_heuristic_value (flip s k) + 1 := by
  have hsplit : s = s.take k ++ s.drop k := (List.take_append_drop k s).symm
  have hlenA : (s.take k).length = k := by
    rw [List.length_take]
    omega
  have hA_ne : s.take k ≠ [] := by
    intro hcon
    rw [hcon] at hlenA
    simp at hlenA
    omega
  cases hB : s.drop k with
  | nil =>
      have hAs : s.take k = s := by
        conv_rhs => rw [hsplit]
        rw [hB, List.append_nil]
      show _ ≤ calculate_heuristic_value ((s.take k).reverse ++ s.drop k) + 1
      rw [hB, List.append_nil, calc_heuristic_reverse, hAs]
      omega
  | cons x B' =>
      obtain ⟨u, hu⟩ : ∃ u, (s.take k).getLast? = some u :=
        Option.isSome_iff_exists.mp (List.getLast?_isSome.mpr hA_ne)
      have hvrev_ne : (s.take k).reverse ≠ [] := by
        simpa using hA_ne
      obtain ⟨v, hv⟩ : ∃ v, ((s.take k).reverse).getLast? = some v :=
        Option.isSome_iff_exists.mp (List.getLast?_isSome.mpr hvrev_ne)
      have hs_eq : calculate_heuristic_value s =
          calculate_heuristic_value (s.take k) + gap_ind u x +
            calculate_heuristic_value (x :: B') := by
        conv_lhs => rw [hsplit, hB]
        rw [calc_heuristic_append_cons, calc_heuristic_snoc, hu]
      have ht_eq : calculate_heuristic_value (flip s k) =
          calculate_heuristic_value (s.take k) + gap_ind v x +
            calculate_heuristic_value (x :: B') := by
        show calculate_heuristic_value ((s.take k).reverse ++ s.drop k) = _
        rw [hB, calc_heuristic_append_cons, calc_heuristic_snoc, hv,
          calc_heuristic_reverse]
      have h1 := gap_ind_le_one u x
      have h2 := gap_ind_le_one v x
      omega

/-! ### C4: the frontier replacement rule -/

/-- C4 counterexample: a candidate with cost equal to (hence, in the claim's
words, "less than or equal to") the existing frontier node's cost is
discarded — the frontier keeps the old node — whereas the claim requires
the existing node to be replaced by the candidate. -/
theorem c4_counterexample :
    ucs_key (⟨[2, 1], 1, [[3, 4], [2, 1]], 0⟩ : Node)
        ≤ ucs_key (⟨[2, 1], 1, [[1, 2], [2, 1]], 0⟩ : Node) ∧
    merge_new_node ucs_key
        ⟨[⟨[2, 1], 1, [[1, 2], [2, 1]], 0⟩], [], 3⟩
        ⟨[2, 1], 1, [[3, 4], [2, 1]], 0⟩
      = ⟨[⟨[2, 1], 1, [[1, 2], [2, 1]], 0⟩], [], 3⟩ ∧
    (⟨[2, 1], 1, [[1, 2], [2, 1]], 0⟩ : Node) ≠ ⟨[2, 1], 1, [[3, 4], [2, 1]], 0⟩ := by
  decide

/-- C4 amended: when the candidate's state is already in the frontier, the
existing node is replaced exactly when the candidate's key (cost for UCS,
total cost for A*) is strictly lower; on ties or worse the candidate is
discarded and the state is unchanged. -/
theorem c4_strict_replacement (key : Node → Nat) (st : SearchState)
    (new_node old_node : Node)
    (hfind : get_node_by_stack st.expanded new_node.stack = some old_node) :
    (key new_node < key old_node →
      merge_new_node key st new_node =
        { st with expanded :=
            (st.expanded.eraseP (fun n => decide (n.stack = old_node.stack)))
              ++ [new_node] }) ∧
    (key old_node ≤ key new_node → merge_new_node key st new_node = st) := by
  have hmem : old_node ∈ st.expanded := List.mem_of_find?_eq_some hfind
  have hstack : old_node.stack = new_node.stack := by
    have := List.find?_some hfind
    exact of_decide_eq_true this
  have hany : stackMem st.expanded new_node.stack = true := by
    unfold stackMem
    rw [List.any_eq_true]
    exact ⟨old_node, hmem, by simp [hstack]⟩
  constructor
  · intro hlt
    unfold merge_new_node
    rw [hany, hfind]
    simp [hlt]
  · intro hge
    unfold merge_new_node
    rw [hany, hfind]
    simp [Nat.not_lt.mpr hge]

/-- Witness for the amended C4: a strictly cheaper candidate does replace,
and an equal-cost candidate is discarded. -/
theorem c4_strict_replacement_witness :
    get_node_by_stack [(⟨[2, 1], 1, [[1, 2], [2, 1]], 0⟩ : Node)] [2, 1]
        = some ⟨[2, 1], 1, [[1, 2], [2, 1]], 0⟩ ∧
    ((ucs_key (⟨[2, 1], 0, [[2, 1]], 0⟩ : Node)
        < ucs_key (⟨[2, 1], 1, [[1, 2], [2, 1]], 0⟩ : Node) →
      merge_new_node ucs_key ⟨[⟨[2, 1], 1, [[1, 2], [2, 1]], 0⟩], [], 3⟩
          ⟨[2, 1], 0, [[2, 1]], 0⟩ =
        { (⟨[⟨[2, 1], 1, [[1, 2], [2, 1]], 0⟩], [], 3⟩ : SearchState) with
            expanded :=
              (List.eraseP (fun n => decide (n.stack = ([2, 1] : List Int)))
                  [(⟨[2, 1], 1, [[1, 2], [2, 1]], 0⟩ : Node)])
                ++ [⟨[2, 1], 0, [[2, 1]], 0⟩] }) ∧
      (ucs_key (⟨[2, 1], 1, [[1, 2], [2, 1]], 0⟩ : Node)
          ≤ ucs_key (⟨[2, 1], 0, [[2, 1]], 0⟩ : Node) →
        merge_new_node ucs_key ⟨[⟨[2, 1], 1, [[1, 2], [2, 1]], 0⟩], [], 3⟩
            ⟨[2, 1], 0, [[2, 1]], 0⟩ = ⟨[⟨[2, 1], 1, [[1, 2], [2, 1]], 0⟩], [], 3⟩)) :=
  ⟨by decide, c4_strict_replacement ucs_key _ _ _ (by decide)⟩

/-! ### C3: no input validation inside the core -/

/-- C3 counterexample: the core defines no `InvalidInputError` and never
raises: on the non-permutation `[1, 1]` (rejected by the external validator)
both searches run and return a normal result of cost 0. -/
theorem c3_counterexample :
    is_stack_valid [1, 1] = false ∧
    (ucs_start_search [1, 1] 1).map
        (fun r => (r.1.backwards_cost, r.2.nodes_expanded)) = some (0, 1) ∧
    (astar_start_search [1, 1] 1).map
        (fun r => (r.1.backwards_cost, r.2.nodes_expanded)) = some (0, 1) := by
  decide

/-- C3 amended: the core performs no input validation and has no error path;
invoked on a non-permutation it simply runs the search (e.g. on the
duplicate input `[1, 1]` and the out-of-range input `[2, 3]` both searches
return normally with cost 0); non-permutation sequences are rejected only by
the external `FlippingSort.is_stack_valid` re-prompt loop. -/
theorem c3_no_core_validation :
    (is_stack_valid [1, 1] = false ∧ is_stack_valid [2, 3] = false) ∧
    (ucs_start_search [1, 1] 1).map (fun r => r.1.backwards_cost) = some 0 ∧
    (astar_start_search [1, 1] 1).map (fun r => r.1.backwards_cost) = some 0 ∧
    (ucs_start_search [2, 3] 1).map (fun r => r.1.backwards_cost) = some 0 ∧
    (astar_start_search [2, 3] 1).map (fun r => r.1.backwards_cost) = some 0 := by
  decide

/-! ### Frontier membership and the merge policy -/

/-- Membership by stack, unfolded. -/
theorem stackMem_iff (l : List Node) (s : List Int) :
    stackMem l s = true ↔ ∃ n ∈ l, n.stack = s := by
  simp [stackMem]

/-- Absence by stack, unfolded. -/
theorem stackMem_false_iff (l : List Node) (s : List Int) :
    stackMem l s = false ↔ ∀ n ∈ l, n.stack ≠ s := by
  simp [stackMem]

/-- What `get_node_by_stack` returns is a member with the wanted stack. -/
theorem get_node_by_stack_spec {l : List Node} {s : List Int} {n : Node}
    (h : get_node_by_stack l s = some n) : n ∈ l ∧ n.stack = s := by
  unfold get_node_by_stack at h
  have hp := List.find?_some h
  simp only [decide_eq_true_eq] at hp
  exact ⟨List.mem_of_find?_eq_some h, hp⟩

/-- `get_node_by_stack` finds a node whenever one exists. -/
theorem get_node_by_stack_isSome {l : List Node} {s : List Int}
    (h : stackMem l s = true) : ∃ n, get_node_by_stack l s = some n := by
  rw [stackMem_iff] at h
  obtain ⟨n, hn, hns⟩ := h
  have : (l.find? (fun node => decide (node.stack = s))).isSome := by
    rw [List.find?_isSome]
    exact ⟨n, hn, by simp [hns]⟩
  exact Option.isSome_iff_exists.mp this

/-- After erasing the unique node with stack `s` from a stack-nodup list, no
member has stack `s`. -/
theorem mem_eraseP_stack_ne :
    ∀ (l : List Node) (s : List Int),
      l.Pairwise (fun a b => a.stack ≠ b.stack) →
      ∀ n ∈ l.eraseP (fun m => decide (m.stack = s)), n.stack ≠ s
  | [], _, _, n, hn => by simp at hn
  | a :: l, s, hp, n, hn => by
      rw [List.pairwise_cons] at hp
      by_cases ha : a.stack = s
      · rw [List.eraseP_cons_of_pos (by simp [ha])] at hn
        intro hns
        exact hp.1 n hn (by rw [hns, ha])
      · rw [List.eraseP_cons_of_neg (by simp [ha])] at hn
        rcases List.mem_cons.mp hn with rfl | hmem
        · exact ha
        · exact mem_eraseP_stack_ne l s hp.2 n hmem

/-- Exhaustive description of the merge policy's behaviour. -/
theorem merge_cases (key : Node → Nat) (st : SearchState) (c : Node) :
    (stackMem st.expanded c.stack = false ∧ stackMem st.traversed c.stack = false ∧
      merge_new_node key st c = { st with expanded := st.expanded ++ [c] }) ∨
    (stackMem st.traversed c.stack = true ∧ stackMem st.expanded c.stack = false ∧
      merge_new_node key st c = st) ∨
    (∃ old, get_node_by_stack st.expanded c.stack = some old ∧
      old ∈ st.expanded ∧ old.stack = c.stack ∧
      ((key c < key old ∧ merge_new_node key st c =
          { st with expanded :=
              (st.expanded.eraseP (fun n => decide (n.stack = old.stack)))
                ++ [c] }) ∨
       (key old ≤ key c ∧ merge_new_node key st c = st))) := by
  by_cases he : stackMem st.expanded c.stack = true
  · right; right
    obtain ⟨old, hold⟩ := get_node_by_stack_isSome he
    obtain ⟨hmem, hstk⟩ := get_node_by_stack_spec hold
    refine ⟨old, hold, hmem, hstk, ?_⟩
    by_cases hlt : key c < key old
    · left
      refine ⟨hlt, ?_⟩
      unfold merge_new_node
      rw [he, hold]
      simp [hlt]
    · right
      refine ⟨Nat.le_of_not_lt hlt, ?_⟩
      unfold merge_new_node
      rw [he, hold]
      simp [hlt]
  · have he' : stackMem st.expanded c.stack = false := by
      cases h : stackMem st.expanded c.stack
      · rfl
      · exact absurd h he
    by_cases ht : stackMem st.traversed c.stack = true
    · right; left
      refine ⟨ht, he', ?_⟩
      unfold merge_new_node
      rw [he', ht]
      simp
    · have ht' : stackMem st.traversed c.stack = false := by
        cases h : stackMem st.traversed c.stack
        · rfl
        · exact absurd h ht
      left
      refine ⟨he', ht', ?_⟩
      unfold merge_new_node
      rw [he', ht']
      simp

/-- In a stack-nodup list, members with equal stacks are equal. -/
theorem eq_of_mem_of_stack_eq {l : List Node}
    (hnd : l.Pairwise (fun a b => a.stack ≠ b.stack)) {a b : Node}
    (ha : a ∈ l) (hb : b ∈ l) (hs : a.stack = b.stack) : a = b := by
  by_contra hne
  exact (List.Pairwise.forall (fun x y hxy => (Ne.symm hxy : _)) hnd ha hb hne) hs

/-- Merging never touches the closed list. -/
theorem merge_traversed (key : Node → Nat) (st : SearchState) (c : Node) :
    (merge_new_node key st c).traversed = st.traversed := by
  rcases merge_cases key st c with ⟨_, _, heq⟩ | ⟨_, _, heq⟩ |
    ⟨old, _, _, _, ⟨_, heq⟩ | ⟨_, heq⟩⟩ <;> rw [heq]

/-- Merging preserves every frontier cover: a frontier node with a given
stack and cost bound keeps being represented (possibly by a cheaper
replacement). -/
theorem merge_cover_preserve (key : Node → Nat) (hfun : List Int → Nat)
    (P : List Int)
    (Hkey : ∀ n : Node, n.heuristic_cost = hfun n.stack →
      key n = n.backwards_cost + hfun n.stack)
    (st : SearchState) (c : Node)
    (hvE : ∀ n ∈ st.expanded, ValidNode hfun P n) (hvc : ValidNode hfun P c)
    (hnd : st.expanded.Pairwise (fun a b => a.stack ≠ b.stack))
    (s : List Int) (b : Nat)
    (hex : ∃ n ∈ st.expanded, n.stack = s ∧ n.backwards_cost ≤ b) :
    ∃ n ∈ (merge_new_node key st c).expanded,
      n.stack = s ∧ n.backwards_cost ≤ b := by
  obtain ⟨n, hn, hns, hnb⟩ := hex
  rcases merge_cases key st c with ⟨_, _, heq⟩ | ⟨_, _, heq⟩ |
    ⟨old, hold, holdmem, holdstk, ⟨hlt, heq⟩ | ⟨_, heq⟩⟩
  · rw [heq]
    exact ⟨n, List.mem_append_left _ hn, hns, hnb⟩
  · rw [heq]
    exact ⟨n, hn, hns, hnb⟩
  · rw [heq]
    by_cases hcase : n.stack = old.stack
    · have hno : n = old := eq_of_mem_of_stack_eq hnd hn holdmem hcase
      have h1 := Hkey c hvc.hval
      have h2 := Hkey old (hvE old holdmem).hval
      rw [holdstk] at h2
      refine ⟨c, List.mem_append_right _ (List.mem_singleton_self c), ?_, ?_⟩
      · rw [← holdstk, ← hcase, hns]
      · subst hno
        omega
    · refine ⟨n, List.mem_append_left _ ?_, hns, hnb⟩
      rw [List.mem_eraseP_of_neg (by simp [hcase])]
      exact hn
  · rw [heq]
    exact ⟨n, hn, hns, hnb⟩

/-- After a merge, the candidate's stack is covered: either it is closed, or
the frontier holds a node for it at most as expensive as the candidate. -/
theorem merge_self_cover (key : Node → Nat) (hfun : List Int → Nat)
    (P : List Int)
    (Hkey : ∀ n : Node, n.heuristic_cost = hfun n.stack →
      key n = n.backwards_cost + hfun n.stack)
    (st : SearchState) (c : Node)
    (hvE : ∀ n ∈ st.expanded, ValidNode hfun P n) (hvc : ValidNode hfun P c) :
    (∃ u ∈ st.traversed, u.stack = c.stack) ∨
      ∃ n ∈ (merge_new_node key st c).expanded,
        n.stack = c.stack ∧ n.backwards_cost ≤ c.backwards_cost := by
  rcases merge_cases key st c with ⟨_, _, heq⟩ | ⟨ht, _, heq⟩ |
    ⟨old, hold, holdmem, holdstk, ⟨hlt, heq⟩ | ⟨hge, heq⟩⟩
  · right
    rw [heq]
    exact ⟨c, List.mem_append_right _ (List.mem_singleton_self c), rfl,
      Nat.le_refl _⟩
  · left
    exact (stackMem_iff _ _).mp ht
  · right
    rw [heq]
    exact ⟨c, List.mem_append_right _ (List.mem_singleton_self c), rfl,
      Nat.le_refl _⟩
  · right
    rw [heq]
    refine ⟨old, holdmem, holdstk, ?_⟩
    have h1 := Hkey c hvc.hval
    have h2 := Hkey old (hvE old holdmem).hval
    rw [holdstk] at h2
    omega

/-- Merging one valid candidate preserves all invariant parts other than
the frontier cover. -/
theorem merge_preInv (key : Node → Nat) (hfun : List Int → Nat)
    (P goal : List Int)
    (Hkey : ∀ n : Node, n.heuristic_cost = hfun n.stack →
      key n = n.backwards_cost + hfun n.stack)
    (st : SearchState) (c : Node)
    (hpre : PreInv hfun P goal st) (hvc : ValidNode hfun P c) :
    PreInv hfun P goal (merge_new_node key st c) := by
  rcases merge_cases key st c with ⟨he, ht, heq⟩ | ⟨_, _, heq⟩ |
    ⟨old, hold, holdmem, holdstk, ⟨hlt, heq⟩ | ⟨_, heq⟩⟩
  · rw [heq]
    have he' := (stackMem_false_iff _ _).mp he
    have ht' := (stackMem_false_iff _ _).mp ht
    refine ⟨?_, hpre.vTrav, ?_, hpre.nodupTrav, ?_, hpre.travNotGoal,
      hpre.optTrav, ?_⟩
    · intro n hn
      rcases List.mem_append.mp hn with hn | hn
      · exact hpre.vExp n hn
      · rw [List.mem_singleton.mp hn]
        exact hvc
    · rw [List.pairwise_append]
      refine ⟨hpre.nodupExp, List.pairwise_singleton _ c, ?_⟩
      intro a ha b hb
      rw [List.mem_singleton.mp hb]
      exact fun hcon => he' a ha hcon
    · intro n hn t htmem
      rcases List.mem_append.mp hn with hn | hn
      · exact hpre.disj n hn t htmem
      · rw [List.mem_singleton.mp hn]
        intro hcon
        exact ht' t htmem hcon.symm
    · rcases hpre.rootMem with hl | ⟨n, hn, hns, hnc⟩
      · exact Or.inl hl
      · exact Or.inr ⟨n, List.mem_append_left _ hn, hns, hnc⟩
  · rw [heq]
    exact hpre
  · rw [heq]
    have hsub : (st.expanded.eraseP (fun n => decide (n.stack = old.stack)))
        ⊆ st.expanded := List.eraseP_subset _
    have hndE : (st.expanded.eraseP
        (fun n => decide (n.stack = old.stack))).Pairwise
          (fun a b => a.stack ≠ b.stack) :=
      hpre.nodupExp.sublist (List.eraseP_sublist _)
    have herased := mem_eraseP_stack_ne st.expanded old.stack hpre.nodupExp
    refine ⟨?_, hpre.vTrav, ?_, hpre.nodupTrav, ?_, hpre.travNotGoal,
      hpre.optTrav, ?_⟩
    · intro n hn
      rcases List.mem_append.mp hn with hn | hn
      · exact hpre.vExp n (hsub hn)
      · rw [List.mem_singleton.mp hn]
        exact hvc
    · rw [List.pairwise_append]
      refine ⟨hndE, List.pairwise_singleton _ c, ?_⟩
      intro a ha b hb
      rw [List.mem_singleton.mp hb]
      intro hcon
      exact herased a ha (hcon.trans holdstk.symm)
    · intro n hn t htmem
      rcases List.mem_append.mp hn with hn | hn
      · exact hpre.disj n (hsub hn) t htmem
      · rw [List.mem_singleton.mp hn]
        intro hcon
        exact hpre.disj old holdmem t htmem (holdstk.trans hcon)
    · rcases hpre.rootMem with hl | ⟨n, hn, hns, hnc⟩
      · exact Or.inl hl
      · by_cases hcase : n.stack = old.stack
        · have hno : n = old := eq_of_mem_of_stack_eq hpre.nodupExp hn holdmem hcase
          have h1 := Hkey c hvc.hval
          have h2 := Hkey old (hpre.vExp old holdmem).hval
          rw [holdstk] at h2
          subst hno
          omega
        · refine Or.inr ⟨n, List.mem_append_left _ ?_, hns, hnc⟩
          rw [List.mem_eraseP_of_neg (by simp [hcase])]
          exact hn
  · rw [heq]
    exact hpre

/-! ### Optimality of the first expansion of each state -/

/-- The central search invariant consequence: any state reachable in `m`
flips is either already closed with cost ≤ `m`, or the frontier holds a node
whose key-relevant quantity is bounded by `m` plus the heuristic gap. -/
theorem frontier_reaches (hfun : List Int → Nat) (P goal : List Int)
    (st : SearchState)
    (Hcons : ∀ s t : List Int, FlipStep s t → hfun s ≤ hfun t + 1)
    (hInv : Inv hfun P goal st) :
    ∀ (m : Nat) (t : List Int), ReachN P m t →
      (∃ u ∈ st.traversed, u.stack = t ∧ u.backwards_cost ≤ m) ∨
      (∃ n ∈ st.expanded,
        n.backwards_cost + hfun n.stack ≤ m + hfun t) := by
  intro m t hreach
  induction hreach with
  | refl =>
      rcases hInv.rootMem with ⟨u, hu, hus⟩ | ⟨n, hn, hns, hnc⟩
      · exact Or.inl ⟨u, hu, hus,
          hInv.optTrav u hu 0 (by rw [hus]; exact ReachN.refl)⟩
      · refine Or.inr ⟨n, hn, ?_⟩
        rw [hns, hnc]
  | snoc hr hstep ih =>
      rename_i m' u t'
      rcases ih with ⟨w, hwmem, hws, hwc⟩ | ⟨n, hnm, hnb⟩
      · have hstep' : FlipStep w.stack t' := by
          rw [hws]
          exact hstep
        rcases hInv.frontierOpt w hwmem t' hstep' with ⟨w', hw'm, hw's⟩ |
          ⟨n, hnm, hns, hnc⟩
        · refine Or.inl ⟨w', hw'm, hw's, ?_⟩
          exact hInv.optTrav w' hw'm (m' + 1)
            (by rw [hw's]; exact ReachN.snoc hr hstep)
        · refine Or.inr ⟨n, hnm, ?_⟩
          rw [hns]
          omega
      · refine Or.inr ⟨n, hnm, ?_⟩
        have hcons := Hcons u t' hstep
        omega

/-- When a node is popped with minimal key, its cost is optimal for its
stack: the Dijkstra/A*-with-consistent-heuristic argument. -/
theorem pop_optimal (key : Node → Nat) (hfun : List Int → Nat)
    (P goal : List Int) (st : SearchState) (current : Node)
    (Hkey : ∀ n : Node, n.heuristic_cost = hfun n.stack →
      key n = n.backwards_cost + hfun n.stack)
    (Hcons : ∀ s t : List Int, FlipStep s t → hfun s ≤ hfun t + 1)
    (hInv : Inv hfun P goal st)
    (hmem : current ∈ st.expanded)
    (hmin : ∀ n ∈ st.expanded, key current ≤ key n) :
    ∀ m, ReachN P m current.stack → current.backwards_cost ≤ m := by
  intro m hm
  rcases frontier_reaches hfun P goal st Hcons hInv m current.stack hm with
    ⟨u, hu, hus, _⟩ | ⟨n, hn, hnb⟩
  · exact absurd hus.symm (hInv.disj current hmem u hu)
  · have h1 := hmin n hn
    have h2 := Hkey current (hInv.vExp current hmem).hval
    have h3 := Hkey n (hInv.vExp n hn).hval
    omega

/-! ### Expansion preserves the invariant -/

/-- The child built for flip length `i ∈ [2, N]` is a valid node. -/
theorem mk_child_valid (hfun : List Int → Nat) (P : List Int) {current : Node}
    (hcv : ValidNode hfun P current) (i : Nat) (h2 : 2 ≤ i)
    (hi : i ≤ current.stack.length) :
    ValidNode hfun P (mk_child hfun current i) := by
  have hne : current.path ≠ [] := by
    intro hcon
    have hl := hcv.len
    rw [hcon] at hl
    simp at hl
  refine ⟨?_, ?_, ?_, ?_, ?_, rfl⟩
  · show (current.path ++ [flip current.stack i]).head? = some P
    rw [List.head?_append_of_ne_nil _ hne]
    exact hcv.head
  · exact List.getLast?_concat _
  · show (current.path ++ [flip current.stack i]).length
        = current.backwards_cost + 1 + 1
    rw [List.length_append, hcv.len]
    rfl
  · show (current.path ++ [flip current.stack i]).Chain' FlipStep
    rw [List.chain'_append]
    refine ⟨hcv.chain, List.chain'_singleton _, ?_⟩
    intro x hx y hy
    rw [hcv.last] at hx
    simp only [Option.mem_def, Option.some_inj, List.head?_cons] at hx hy
    rw [← hx, ← hy]
    exact ⟨i, h2, hi, rfl⟩
  · exact (flip_perm _ _).trans hcv.sperm

/-- The expansion loop, rewritten through `mk_child`. -/
theorem expand_node_eq (key : Node → Nat) (hfun : List Int → Nat)
    (current : Node) (st : SearchState) :
    expand_node key hfun current st =
      (List.range' 2 (current.stack.length - 1)).foldl
        (fun st i => merge_new_node key
          { st with nodes_expanded := st.nodes_expanded + 1 }
          (mk_child hfun current i)) st := rfl

/-- Folding the merge over any list of legal flip lengths turns a partial
frontier cover (children with lengths in `ks` still outstanding) into the
full invariant, and never touches the closed list. -/
theorem expand_fold_inv (key : Node → Nat) (hfun : List Int → Nat)
    (P goal : List Int)
    (Hkey : ∀ n : Node, n.heuristic_cost = hfun n.stack →
      key n = n.backwards_cost + hfun n.stack)
    (current : Node) (hcv : ValidNode hfun P current) :
    ∀ ks : List Nat, (∀ i ∈ ks, 2 ≤ i ∧ i ≤ current.stack.length) →
      ∀ st : SearchState, PreInv hfun P goal st →
      (∀ t ∈ st.traversed, ∀ s, FlipStep t.stack s →
        ((t = current ∧ ∃ i ∈ ks, s = flip current.stack i) ∨
          ((∃ u ∈ st.traversed, u.stack = s) ∨
            ∃ n ∈ st.expanded, n.stack = s ∧
              n.backwards_cost ≤ t.backwards_cost + 1))) →
      Inv hfun P goal
        (ks.foldl (fun st i => merge_new_node key
          { st with nodes_expanded := st.nodes_expanded + 1 }
          (mk_child hfun current i)) st) ∧
      (ks.foldl (fun st i => merge_new_node key
          { st with nodes_expanded := st.nodes_expanded + 1 }
          (mk_child hfun current i)) st).traversed = st.traversed
  | [], _, st, hpre, hcover => by
      refine ⟨⟨hpre, ?_⟩, rfl⟩
      intro t ht s hstep
      rcases hcover t ht s hstep with ⟨_, i, hi, _⟩ | hc
      · exact absurd hi (List.not_mem_nil i)
      · exact hc
  | i :: ks', hks, st, hpre, hcover => by
      have hib := hks i (List.mem_cons_self i ks')
      have hvc : ValidNode hfun P (mk_child hfun current i) :=
        mk_child_valid hfun P hcv i hib.1 hib.2
      set stb : SearchState :=
        { st with nodes_expanded := st.nodes_expanded + 1 } with hstb
      have hpreb : PreInv hfun P goal stb :=
        ⟨hpre.vExp, hpre.vTrav, hpre.nodupExp, hpre.nodupTrav, hpre.disj,
          hpre.travNotGoal, hpre.optTrav, hpre.rootMem⟩
      set st' : SearchState := merge_new_node key stb (mk_child hfun current i)
        with hst'
      have hpre' : PreInv hfun P goal st' :=
        merge_preInv key hfun P goal Hkey stb (mk_child hfun current i)
          hpreb hvc
      have htrav' : st'.traversed = st.traversed :=
        merge_traversed key stb (mk_child hfun current i)
      have hself := merge_self_cover key hfun P Hkey stb
        (mk_child hfun current i) hpreb.vExp hvc
      have hcover' : ∀ t ∈ st'.traversed, ∀ s, FlipStep t.stack s →
          ((t = current ∧ ∃ j ∈ ks', s = flip current.stack j) ∨
            ((∃ u ∈ st'.traversed, u.stack = s) ∨
              ∃ n ∈ st'.expanded, n.stack = s ∧
                n.backwards_cost ≤ t.backwards_cost + 1)) := by
        intro t ht s hstep
        rw [htrav'] at ht
        rcases hcover t ht s hstep with ⟨heqc, j, hj, hsj⟩ | hleft | ⟨n, hn, hns, hnb⟩
        · rcases List.mem_cons.mp hj with rfl | hj'
          · right
            have hstk : (mk_child hfun current j).stack = flip current.stack j :=
              rfl
            rcases hself with ⟨u, hu, hus⟩ | ⟨n, hn, hns, hnb⟩
            · left
              rw [htrav']
              exact ⟨u, hu, by rw [hus, hstk, hsj]⟩
            · right
              refine ⟨n, hn, by rw [hns, hstk, hsj], ?_⟩
              rw [heqc]
              exact hnb
          · exact Or.inl ⟨heqc, j, hj', hsj⟩
        · right
          left
          rw [htrav']
          exact hleft
        · right
          right
          exact merge_cover_preserve key hfun P Hkey stb
            (mk_child hfun current i) hpreb.vExp hvc hpreb.nodupExp s
            (t.backwards_cost + 1) ⟨n, hn, hns, hnb⟩
      have hrec := expand_fold_inv key hfun P goal Hkey current hcv ks'
        (fun j hj => hks j (List.mem_cons_of_mem i hj)) st' hpre' hcover'
      refine ⟨hrec.1, ?_⟩
      have h2 := hrec.2
      rw [htrav'] at h2
      exact h2

/-! ### One iteration of the search loop -/

/-- Exhaustive description of one loop iteration. -/
theorem search_step_cases (key : Node → Nat) (hfun : List Int → Nat)
    (goal : List Int) (st : SearchState) :
    (search_step key hfun goal st = .fail ∧ st.expanded = []) ∨
    (∃ current rest,
      stable_sort (fun a b => decide (key a ≤ key b)) st.expanded
        = current :: rest ∧
      ((current.stack = goal ∧ search_step key hfun goal st =
          .found current ⟨rest, st.traversed ++ [current], st.nodes_expanded⟩) ∨
       (current.stack ≠ goal ∧ search_step key hfun goal st =
          .next (expand_node key hfun current
            ⟨rest, st.traversed ++ [current], st.nodes_expanded⟩)))) := by
  unfold search_step
  cases hsort : stable_sort (fun a b => decide (key a ≤ key b)) st.expanded with
  | nil =>
      left
      have hperm := stable_sort_perm (fun a b => decide (key a ≤ key b))
        st.expanded
      rw [hsort] at hperm
      exact ⟨rfl, (hperm.symm).eq_nil⟩
  | cons current rest =>
      right
      refine ⟨current, rest, rfl, ?_⟩
      by_cases hg : current.stack = goal
      · left
        refine ⟨hg, ?_⟩
        show (if current.stack = goal then
            StepResult.found current
              ⟨rest, st.traversed ++ [current], st.nodes_expanded⟩
          else StepResult.next (expand_node key hfun current
              ⟨rest, st.traversed ++ [current], st.nodes_expanded⟩)) = _
        rw [if_pos hg]
      · right
        refine ⟨hg, ?_⟩
        show (if current.stack = goal then
            StepResult.found current
              ⟨rest, st.traversed ++ [current], st.nodes_expanded⟩
          else StepResult.next (expand_node key hfun current
              ⟨rest, st.traversed ++ [current], st.nodes_expanded⟩)) = _
        rw [if_neg hg]

/-- A step that continues preserves the invariant and closes exactly one
more (previously open) node. -/
theorem search_step_next_inv (key : Node → Nat) (hfun : List Int → Nat)
    (P goal : List Int)
    (Hkey : ∀ n : Node, n.heuristic_cost = hfun n.stack →
      key n = n.backwards_cost + hfun n.stack)
    (Hcons : ∀ s t : List Int, FlipStep s t → hfun s ≤ hfun t + 1)
    {st st2 : SearchState} (hInv : Inv hfun P goal st)
    (hstep : search_step key hfun goal st = .next st2) :
    Inv hfun P goal st2 ∧
      ∃ current, current ∈ st.expanded ∧
        st2.traversed = st.traversed ++ [current] := by
  rcases search_step_cases key hfun goal st with ⟨hfail, _⟩ |
    ⟨current, rest, hsort, ⟨_, heq⟩ | ⟨hg, heq⟩⟩
  · rw [hstep] at hfail
    exact absurd hfail (by simp)
  · rw [hstep] at heq
    exact absurd heq (by simp)
  · rw [hstep] at heq
    have hst2 : st2 = expand_node key hfun current
        ⟨rest, st.traversed ++ [current], st.nodes_expanded⟩ :=
      StepResult.next.inj heq
    have hperm : (current :: rest).Perm st.expanded := by
      have h := stable_sort_perm (fun a b => decide (key a ≤ key b)) st.expanded
      rw [hsort] at h
      exact h
    have hcmem : current ∈ st.expanded := hperm.subset (List.mem_cons_self _ _)
    have hmin := stable_sort_key_head_min key st.expanded current rest hsort
    have hnd : (current :: rest).Pairwise (fun a b => a.stack ≠ b.stack) :=
      (hperm.pairwise_iff (fun hxy => Ne.symm hxy)).mpr hInv.nodupExp
    have hndrest := (List.pairwise_cons.mp hnd).2
    have hhead := (List.pairwise_cons.mp hnd).1
    have hcv : ValidNode hfun P current := hInv.vExp current hcmem
    have hopt := pop_optimal key hfun P goal st current Hkey Hcons hInv hcmem hmin
    have hrest_sub : ∀ n ∈ rest, n ∈ st.expanded := fun n hn =>
      hperm.subset (List.mem_cons_of_mem _ hn)
    set st1 : SearchState :=
      ⟨rest, st.traversed ++ [current], st.nodes_expanded⟩ with hst1
    have hpre1 : PreInv hfun P goal st1 := by
      refine ⟨?_, ?_, hndrest, ?_, ?_, ?_, ?_, ?_⟩
      · exact fun n hn => hInv.vExp n (hrest_sub n hn)
      · intro t ht
        rcases List.mem_append.mp ht with ht | ht
        · exact hInv.vTrav t ht
        · rw [List.mem_singleton.mp ht]
          exact hcv
      · rw [List.pairwise_append]
        refine ⟨hInv.nodupTrav, List.pairwise_singleton _ _, ?_⟩
        intro a ha b hb
        rw [List.mem_singleton.mp hb]
        intro hcon
        exact hInv.disj current hcmem a ha hcon.symm
      · intro n hn t ht
        rcases List.mem_append.mp ht with ht | ht
        · exact hInv.disj n (hrest_sub n hn) t ht
        · rw [List.mem_singleton.mp ht]
          intro hcon
          exact hhead n hn hcon.symm
      · intro t ht
        rcases List.mem_append.mp ht with ht | ht
        · exact hInv.travNotGoal t ht
        · rw [List.mem_singleton.mp ht]
          exact hg
      · intro t ht m hm
        rcases List.mem_append.mp ht with ht | ht
        · exact hInv.optTrav t ht m hm
        · have hteq := List.mem_singleton.mp ht
          subst hteq
          exact hopt m hm
      · rcases hInv.rootMem with ⟨u, hu, hus⟩ | ⟨n, hn, hns, hnc⟩
        · exact Or.inl ⟨u, List.mem_append_left _ hu, hus⟩
        · rcases List.mem_cons.mp (hperm.symm.subset hn) with rfl | hnr
          · exact Or.inl ⟨n, List.mem_append_right _ (List.mem_singleton_self n),
              hns⟩
          · exact Or.inr ⟨n, hnr, hns, hnc⟩
    have hcover : ∀ t ∈ st1.traversed, ∀ s, FlipStep t.stack s →
        ((t = current ∧ ∃ i ∈ List.range' 2 (current.stack.length - 1),
            s = flip current.stack i) ∨
          ((∃ u ∈ st1.traversed, u.stack = s) ∨
            ∃ n ∈ st1.expanded, n.stack = s ∧
              n.backwards_cost ≤ t.backwards_cost + 1)) := by
      intro t ht s hstep'
      rcases List.mem_append.mp ht with ht' | ht'
      · right
        rcases hInv.frontierOpt t ht' s hstep' with ⟨u, hu, hus⟩ | ⟨n, hn, hns, hnb⟩
        · exact Or.inl ⟨u, List.mem_append_left _ hu, hus⟩
        · rcases List.mem_cons.mp (hperm.symm.subset hn) with rfl | hnr
          · exact Or.inl ⟨n, List.mem_append_right _ (List.mem_singleton_self n),
              hns⟩
          · exact Or.inr ⟨n, hnr, hns, hnb⟩
      · have hteq := List.mem_singleton.mp ht'
        subst hteq
        obtain ⟨k, hk2, hkl, rfl⟩ := hstep'
        left
        refine ⟨rfl, k, ?_, rfl⟩
        rw [List.mem_range']
        exact ⟨k - 2, by omega, by omega⟩
    have hbounds : ∀ i ∈ List.range' 2 (current.stack.length - 1),
        2 ≤ i ∧ i ≤ current.stack.length := by
      intro i hi
      rw [List.mem_range'] at hi
      obtain ⟨j, hj, rfl⟩ := hi
      omega
    have hfold := expand_fold_inv key hfun P goal Hkey current hcv
      (List.range' 2 (current.stack.length - 1)) hbounds st1 hpre1 hcover
    rw [hst2]
    constructor
    · have h1 := hfold.1
      rw [expand_node_eq]
      exact h1
    · refine ⟨current, hcmem, ?_⟩
      rw [expand_node_eq]
      exact hfold.2

/-- A step that returns a node returns a valid node for the goal, with
optimal cost. -/
theorem search_step_found (key : Node → Nat) (hfun : List Int → Nat)
    (P goal : List Int)
    (Hkey : ∀ n : Node, n.heuristic_cost = hfun n.stack →
      key n = n.backwards_cost + hfun n.stack)
    (Hcons : ∀ s t : List Int, FlipStep s t → hfun s ≤ hfun t + 1)
    {st : SearchState} {node : Node} {st1 : SearchState}
    (hInv : Inv hfun P goal st)
    (hstep : search_step key hfun goal st = .found node st1) :
    ValidNode hfun P node ∧ node.stack = goal ∧
      (∀ m, ReachN P m goal → node.backwards_cost ≤ m) := by
  rcases search_step_cases key hfun goal st with ⟨hfail, _⟩ |
    ⟨current, rest, hsort, ⟨hg, heq⟩ | ⟨_, heq⟩⟩
  · rw [hstep] at hfail
    exact absurd hfail (by simp)
  · rw [hstep] at heq
    have hnode : node = current := (StepResult.found.inj heq).1
    rw [hnode]
    have hperm : (current :: rest).Perm st.expanded := by
      have h := stable_sort_perm (fun a b => decide (key a ≤ key b)) st.expanded
      rw [hsort] at h
      exact h
    have hcmem : current ∈ st.expanded := hperm.subset (List.mem_cons_self _ _)
    have hmin := stable_sort_key_head_min key st.expanded current rest hsort
    have hopt := pop_optimal key hfun P goal st current Hkey Hcons hInv hcmem hmin
    refine ⟨hInv.vExp current hcmem, hg, ?_⟩
    intro m hm
    refine hopt m ?_
    rw [hg]
    exact hm
  · rw [hstep] at heq
    exact absurd heq (by simp)

/-- While the goal is reachable and not yet returned, the frontier cannot be
empty: a step never fails. -/
theorem search_step_not_fail (key : Node → Nat) (hfun : List Int → Nat)
    (P goal : List Int) (st : SearchState)
    (Hcons : ∀ s t : List Int, FlipStep s t → hfun s ≤ hfun t + 1)
    (hInv : Inv hfun P goal st) (hreach : ∃ m, ReachN P m goal) :
    search_step key hfun goal st ≠ .fail := by
  intro hfail
  rcases search_step_cases key hfun goal st with ⟨_, hemp⟩ |
    ⟨current, rest, _, ⟨_, heq⟩ | ⟨_, heq⟩⟩
  · obtain ⟨m, hm⟩ := hreach
    rcases frontier_reaches hfun P goal st Hcons hInv m goal hm with
      ⟨u, hu, hus, _⟩ | ⟨n, hn, _⟩
    · exact hInv.travNotGoal u hu hus
    · rw [hemp] at hn
      exact absurd hn (List.not_mem_nil n)
  · rw [hfail] at heq
    exact absurd heq.symm (by simp)
  · rw [hfail] at heq
    exact absurd heq.symm (by simp)

/-! ### The whole loop -/

/-- Whatever the fuel, a successful run returns a valid, goal-reaching,
cost-optimal node. -/
theorem search_loop_some (key : Node → Nat) (hfun : List Int → Nat)
    (P goal : List Int)
    (Hkey : ∀ n : Node, n.heuristic_cost = hfun n.stack →
      key n = n.backwards_cost + hfun n.stack)
    (Hcons : ∀ s t : List Int, FlipStep s t → hfun s ≤ hfun t + 1) :
    ∀ (fuel : Nat) (st : SearchState) (node : Node) (st1 : SearchState),
      Inv hfun P goal st →
      search_loop key hfun goal fuel st = some (node, st1) →
      ValidNode hfun P node ∧ node.stack = goal ∧
        (∀ m, ReachN P m goal → node.backwards_cost ≤ m)
  | 0, st, node, st1, _, h => by simp [search_loop] at h
  | fuel + 1, st, node, st1, hInv, h => by
      unfold search_loop at h
      cases hstep : search_step key hfun goal st with
      | found n2 s2 =>
          rw [hstep] at h
          have h2 : n2 = node := by
            have := Option.some.inj h
            exact (Prod.mk.injEq _ _ _ _ ▸ this).1
          subst h2
          exact search_step_found key hfun P goal Hkey Hcons hInv hstep
      | next s2 =>
          rw [hstep] at h
          exact search_loop_some key hfun P goal Hkey Hcons fuel s2 node st1
            (search_step_next_inv key hfun P goal Hkey Hcons hInv hstep).1 h
      | fail =>
          rw [hstep] at h
          exact absurd h (by simp)

/-- The closed list never exceeds the number of rearrangements of `P`. -/
theorem traversed_bound (hfun : List Int → Nat) (P goal : List Int)
    (st : SearchState) (hInv : Inv hfun P goal st) :
    st.traversed.length ≤ P.permutations.length := by
  have hnd : (st.traversed.map Node.stack).Nodup :=
    List.pairwise_map.mpr hInv.nodupTrav
  have hsub : ∀ s ∈ st.traversed.map Node.stack, s ∈ P.permutations := by
    intro s hs
    rw [List.mem_map] at hs
    obtain ⟨n, hn, rfl⟩ := hs
    rw [List.mem_permutations]
    exact (hInv.vTrav n hn).sperm
  have h1 : (st.traversed.map Node.stack).toFinset.card
      = st.traversed.length := by
    rw [List.toFinset_card_of_nodup hnd, List.length_map]
  have h2 : (st.traversed.map Node.stack).toFinset ⊆ P.permutations.toFinset := by
    intro s hs
    rw [List.mem_toFinset]
    exact hsub s (List.mem_toFinset.mp hs)
  calc st.traversed.length
      = (st.traversed.map Node.stack).toFinset.card := h1.symm
    _ ≤ P.permutations.toFinset.card := Finset.card_le_card h2
    _ ≤ P.permutations.length := List.toFinset_card_le _

/-- With the invariant and a reachable goal, the loop returns within a fuel
bounded by the number of closable states. -/
theorem search_loop_terminates_aux (key : Node → Nat) (hfun : List Int → Nat)
    (P goal : List Int)
    (Hkey : ∀ n : Node, n.heuristic_cost = hfun n.stack →
      key n = n.backwards_cost + hfun n.stack)
    (Hcons : ∀ s t : List Int, FlipStep s t → hfun s ≤ hfun t + 1)
    (hreach : ∃ m, ReachN P m goal) :
    ∀ (gas : Nat) (st : SearchState), Inv hfun P goal st →
      P.permutations.length + 1 - st.traversed.length ≤ gas →
      ∃ fuel node st1, search_loop key hfun goal fuel st = some (node, st1)
  | 0, st, hInv, hgas => by
      exfalso
      have hb := traversed_bound hfun P goal st hInv
      omega
  | gas + 1, st, hInv, hgas => by
      cases hstep : search_step key hfun goal st with
      | found node st1 =>
          refine ⟨1, node, st1, ?_⟩
          unfold search_loop
          rw [hstep]
      | next st2 =>
          obtain ⟨hInv2, current, _, htrav⟩ :=
            search_step_next_inv key hfun P goal Hkey Hcons hInv hstep
          have hlen : st2.traversed.length = st.traversed.length + 1 := by
            rw [htrav, List.length_append]
            rfl
          have hb2 := traversed_bound hfun P goal st2 hInv2
          obtain ⟨fuel, node, st1, hfuel⟩ :=
            search_loop_terminates_aux key hfun P goal Hkey Hcons hreach gas
              st2 hInv2 (by omega)
          refine ⟨fuel + 1, node, st1, ?_⟩
          unfold search_loop
          rw [hstep]
          exact hfuel
      | fail =>
          exact absurd hstep
            (search_step_not_fail key hfun P goal st Hcons hInv hreach)

/-- With the invariant and a reachable goal, the loop terminates. -/
theorem search_loop_terminates (key : Node → Nat) (hfun : List Int → Nat)
    (P goal : List Int)
    (Hkey : ∀ n : Node, n.heuristic_cost = hfun n.stack →
      key n = n.backwards_cost + hfun n.stack)
    (Hcons : ∀ s t : List Int, FlipStep s t → hfun s ≤ hfun t + 1)
    (hreach : ∃ m, ReachN P m goal) (st : SearchState)
    (hInv : Inv hfun P goal st) :
    ∃ fuel node st1, search_loop key hfun goal fuel st = some (node, st1) :=
  search_loop_terminates_aux key hfun P goal Hkey Hcons hreach
    (P.permutations.length + 1 - st.traversed.length) st hInv (Nat.le_refl _)

/-- The invariant holds at initialisation. -/
theorem init_inv (hfun : List Int → Nat) (P goal : List Int) :
    Inv hfun P goal (init_state ⟨P, 0, [P], hfun P⟩) := by
  refine ⟨⟨?_, ?_, ?_, ?_, ?_, ?_, ?_, ?_⟩, ?_⟩
  · intro n hn
    rw [List.mem_singleton.mp hn]
    exact ⟨rfl, rfl, rfl, List.chain'_singleton _, List.Perm.refl _, rfl⟩
  · intro n hn
    exact absurd hn (List.not_mem_nil n)
  · exact List.pairwise_singleton _ _
  · exact List.Pairwise.nil
  · intro n _ t ht
    exact absurd ht (List.not_mem_nil t)
  · intro t ht
    exact absurd ht (List.not_mem_nil t)
  · intro t ht
    exact absurd ht (List.not_mem_nil t)
  · exact Or.inr ⟨⟨P, 0, [P], hfun P⟩, List.mem_singleton_self _, rfl, rfl⟩
  · intro t ht
    exact absurd ht (List.not_mem_nil t)

/-! ### Instantiation for the two algorithms -/

/-- The UCS sort key is cost plus the (zero) stored heuristic. -/
theorem ucs_Hkey : ∀ n : Node, n.heuristic_cost = ucs_hfun n.stack →
    ucs_key n = n.backwards_cost + ucs_hfun n.stack := by
  intro n _
  simp [ucs_key, ucs_hfun]

/-- The zero heuristic is consistent. -/
theorem ucs_Hcons : ∀ s t : List Int, FlipStep s t →
    ucs_hfun s ≤ ucs_hfun t + 1 := by
  intro s t _
  simp [ucs_hfun]

/-- The A* sort key is cost plus the stored heuristic. -/
theorem astar_Hkey : ∀ n : Node,
    n.heuristic_cost = calculate_heuristic_value n.stack →
    astar_key n = n.backwards_cost + calculate_heuristic_value n.stack := by
  intro n h
  unfold astar_key Node.total_cost
  omega

/-- The adjacency-gap heuristic is consistent. -/
theorem astar_Hcons : ∀ s t : List Int, FlipStep s t →
    calculate_heuristic_value s ≤ calculate_heuristic_value t + 1 := by
  intro s t hstep
  obtain ⟨k, hk2, hkl, rfl⟩ := hstep
  exact calc_heuristic_flip s k hk2 hkl

/-! ### The goal stack -/

/-- `sorted(...)` permutes its input. -/
theorem goal_of_perm (s : List Int) : (goal_of s).Perm s :=
  stable_sort_perm _ s

/-- `sorted(...)` sorts ascending. -/
theorem goal_of_sorted (s : List Int) :
    (goal_of s).Pairwise (fun a b : Int => a ≤ b) := by
  have h := stable_sort_pairwise (fun a b : Int => decide (a ≤ b))
    (fun a b c hab hbc => decide_eq_true
      (le_trans (of_decide_eq_true hab) (of_decide_eq_true hbc)))
    (fun a b => by
      rcases le_total a b with h | h
      · exact Or.inl (decide_eq_true h)
      · exact Or.inr (decide_eq_true h)) s
  exact h.imp (fun hab => of_decide_eq_true hab)

/-- `[1, …, N]` is sorted ascending. -/
theorem ascSeq_sorted (N : Nat) :
    (ascSeq N).Pairwise (fun a b : Int => a ≤ b) := by
  unfold ascSeq
  rw [List.pairwise_map]
  have h : (List.range N).Pairwise (· < ·) := by
    rw [List.range_eq_range']
    exact List.pairwise_lt_range' 0 N
  refine h.imp ?_
  intro a b hab
  show (a : Int) + 1 ≤ (b : Int) + 1
  omega

/-- The goal stack of a permutation of `1..N` is `[1, …, N]`. -/
theorem goal_of_eq_ascSeq {N : Nat} {P : List Int} (hP : P.Perm (ascSeq N)) :
    goal_of P = ascSeq N :=
  List.eq_of_perm_of_sorted ((goal_of_perm P).trans hP) (goal_of_sorted P)
    (ascSeq_sorted N)

/-! ### Any permutation can be pancake-sorted -/

/-- A flip whose length stays inside `u` commutes with appending. -/
theorem flip_append (u : List Int) (x : Int) (k : Nat) (hk : k ≤ u.length) :
    flip (u ++ [x]) k = flip u k ++ [x] := by
  unfold flip
  rw [List.take_append_of_le_length hk, List.drop_append_of_le_length hk,
    List.append_assoc]

/-- Reachability among lists lifts to reachability with a fixed last
element. -/
theorem reach_append_right {s t : List Int} (x : Int) {m : Nat}
    (h : ReachN s m t) : ReachN (s ++ [x]) m (t ++ [x]) := by
  induction h with
  | refl => exact ReachN.refl
  | snoc hr hstep ih =>
      obtain ⟨k, hk2, hkl, rfl⟩ := hstep
      refine ReachN.snoc ih ⟨k, hk2, ?_, ?_⟩
      · rw [List.length_append]
        omega
      · exact (flip_append _ x k hkl).symm

/-- `[1, …, N+1] = [1, …, N] ++ [N+1]`. -/
theorem ascSeq_succ (N : Nat) : ascSeq (N + 1) = ascSeq N ++ [(N : Int) + 1] := by
  unfold ascSeq
  rw [List.range_succ, List.map_append]
  rfl

/-- Pancake sorting: every permutation of `1..N` reaches the ascending
stack by flips. -/
theorem reach_sorted_asc : ∀ (N : Nat) (P : List Int), P.Perm (ascSeq N) →
    ∃ m, ReachN P m (ascSeq N)
  | 0, P, hP => by
      have hnil : P = [] := hP.eq_nil
      subst hnil
      exact ⟨0, ReachN.refl⟩
  | N + 1, P, hP => by
      by_cases hN : N = 0
      · subst hN
        have h1 : ascSeq 1 = [1] := by decide
        rw [h1] at hP
        have hP1 : P = [1] := List.perm_singleton.mp hP
        subst hP1
        rw [h1]
        exact ⟨0, ReachN.refl⟩
      · set M : Int := (N : Int) + 1 with hM
        have hlenAsc : (ascSeq (N + 1)).length = N + 1 := by
          unfold ascSeq
          simp
        have hlenP : P.length = N + 1 := by rw [hP.length_eq, hlenAsc]
        have hMmem : M ∈ P := hP.mem_iff.mpr
          (by rw [ascSeq_succ]
              exact List.mem_append_right _ (List.mem_singleton_self M))
        obtain ⟨u, v, rfl⟩ := List.append_of_mem hMmem
        have hstep1 : ∃ w δ, δ ≤ 1 ∧ ReachN (u ++ M :: v) δ (M :: w) ∧
            (M :: w).Perm (u ++ M :: v) := by
          by_cases hune : u = []
          · subst hune
            exact ⟨v, 0, by omega, ReachN.refl, List.Perm.refl _⟩
          · have hulen : 1 ≤ u.length := by
              cases u with
              | nil => exact absurd rfl hune
              | cons a u' => simp
            have hulen1 : (u ++ [M]).length = u.length + 1 := by simp
            have hflip : flip (u ++ M :: v) (u.length + 1)
                = M :: (u.reverse ++ v) := by
              unfold flip
              rw [List.append_cons u M v, List.take_left' hulen1,
                List.drop_left' hulen1]
              simp
            refine ⟨u.reverse ++ v, 1, by omega, ?_, ?_⟩
            · refine ReachN.snoc ReachN.refl
                ⟨u.length + 1, by omega, ?_, hflip.symm⟩
              rw [List.length_append, List.length_cons]
              omega
            · rw [← hflip]
              exact flip_perm _ _
        obtain ⟨w, δ, hδ1, hδreach, hδperm⟩ := hstep1
        have hlen2 : (M :: w).length = N + 1 := by
          rw [hδperm.length_eq]
          exact hlenP
        have hflip2 : flip (M :: w) (N + 1) = w.reverse ++ [M] := by
          have hlen2' : N + 1 = (M :: w).length := hlen2.symm
          unfold flip
          rw [hlen2', List.take_length, List.drop_length, List.append_nil,
            List.reverse_cons]
        have hreach2 : ReachN (u ++ M :: v) (δ + 1) (w.reverse ++ [M]) :=
          ReachN.snoc hδreach
            ⟨N + 1, by omega, Nat.le_of_eq hlen2.symm, hflip2.symm⟩
        have h2 : (w.reverse ++ [M]).Perm (M :: w) := by
          rw [← List.reverse_cons]
          exact List.reverse_perm _
        have h3 := (h2.trans hδperm).trans hP
        rw [ascSeq_succ] at h3
        have hQ : (w.reverse).Perm (ascSeq N) :=
          (List.perm_append_right_iff [M]).mp h3
        obtain ⟨m, hm⟩ := reach_sorted_asc N w.reverse hQ
        have hlift := reach_append_right M hm
        have htotal := hreach2.trans hlift
        rw [← ascSeq_succ] at htotal
        exact ⟨δ + 1 + m, htotal⟩

/-- Every state on a flip-chained path is a rearrangement of the head. -/
theorem chain_all_perm : ∀ (p : List (List Int)), p.Chain' FlipStep →
    ∀ a, p.head? = some a → ∀ s ∈ p, s.Perm a
  | [], _, a, ha, s, hs => absurd hs (List.not_mem_nil s)
  | x :: rest, hchain, a, ha, s, hs => by
      simp only [List.head?_cons, Option.some_inj] at ha
      subst ha
      rcases List.mem_cons.mp hs with rfl | hs'
      · exact List.Perm.refl s
      · cases rest with
        | nil => exact absurd hs' (List.not_mem_nil s)
        | cons y rest' =>
            rw [List.chain'_cons] at hchain
            have hrec := chain_all_perm (y :: rest') hchain.2 y rfl s hs'
            have hyx : y.Perm x := by
              obtain ⟨k, _, _, rfl⟩ := hchain.1
              exact flip_perm _ _
            exact hrec.trans hyx

/-- Run states keep the invariant. -/
theorem run_states_inv (key : Node → Nat) (hfun : List Int → Nat)
    (P goal : List Int)
    (Hkey : ∀ n : Node, n.heuristic_cost = hfun n.stack →
      key n = n.backwards_cost + hfun n.stack)
    (Hcons : ∀ s t : List Int, FlipStep s t → hfun s ≤ hfun t + 1) :
    ∀ (k : Nat) (st st' : SearchState), Inv hfun P goal st →
      run_states key hfun goal k st = some st' → Inv hfun P goal st'
  | 0, st, st', hInv, h => by
      unfold run_states at h
      have heq := Option.some.inj h
      subst heq
      exact hInv
  | k + 1, st, st', hInv, h => by
      unfold run_states at h
      cases hstep : search_step key hfun goal st with
      | next st2 =>
          rw [hstep] at h
          exact run_states_inv key hfun P goal Hkey Hcons k st2 st'
            (search_step_next_inv key hfun P goal Hkey Hcons hInv hstep).1 h
      | found n s =>
          rw [hstep] at h
          exact absurd h (by simp)
      | fail =>
          rw [hstep] at h
          exact absurd h (by simp)

/-- A candidate whose state is already closed is always discarded, whatever
its cost. -/
theorem merge_discard_closed (key : Node → Nat) (st : SearchState) (c : Node)
    (hdisj : ∀ n ∈ st.expanded, ∀ t ∈ st.traversed, n.stack ≠ t.stack)
    (ht : stackMem st.traversed c.stack = true) :
    merge_new_node key st c = st := by
  rcases merge_cases key st c with ⟨_, ht', _⟩ | ⟨_, _, heq⟩ |
    ⟨old, _, holdmem, holdstk, hcase⟩
  · rw [ht'] at ht
    exact absurd ht (by simp)
  · exact heq
  · obtain ⟨t, htmem, hts⟩ := (stackMem_iff _ _).mp ht
    exact absurd (holdstk.trans hts.symm) (hdisj old holdmem t htmem)

/-! ### C7: termination of both searches -/

/-- C7: for every permutation `P` of `1..N`, both search loops terminate:
some finite fuel makes `start_search` return a node. -/
theorem c7_both_searches_terminate (N : Nat) (P : List Int)
    (hP : P.Perm (ascSeq N)) :
    (∃ fuel r, ucs_start_search P fuel = some r) ∧
    (∃ fuel r, astar_start_search P fuel = some r) := by
  have hgoal : goal_of P = ascSeq N := goal_of_eq_ascSeq hP
  have hreach : ∃ m, ReachN P m (goal_of P) := by
    rw [hgoal]
    exact reach_sorted_asc N P hP
  constructor
  · obtain ⟨fuel, node, st1, hsome⟩ := search_loop_terminates ucs_key ucs_hfun
      P (goal_of P) ucs_Hkey ucs_Hcons hreach (init_state (ucs_root P))
      (init_inv ucs_hfun P (goal_of P))
    exact ⟨fuel, (node, st1), hsome⟩
  · obtain ⟨fuel, node, st1, hsome⟩ := search_loop_terminates astar_key
      calculate_heuristic_value P (goal_of P) astar_Hkey astar_Hcons hreach
      (init_state (astar_root P))
      (init_inv calculate_heuristic_value P (goal_of P))
    exact ⟨fuel, (node, st1), hsome⟩

/-- Witness for C7 at `P = [2, 1]`. -/
theorem c7_both_searches_terminate_witness :
    ([2, 1] : List Int).Perm (ascSeq 2) ∧
      ((∃ fuel r, ucs_start_search [2, 1] fuel = some r) ∧
       (∃ fuel r, astar_start_search [2, 1] fuel = some r)) :=
  ⟨by decide, c7_both_searches_terminate 2 [2, 1] (by decide)⟩

/-! ### C1: UCS and A* return the same, optimal, cost -/

/-- C1: on every permutation `P` of `1..N` both searches return, and the
returned nodes have equal `backwards_cost` (both are the minimal number of
flips needed to sort `P`). -/
theorem c1_ucs_astar_same_cost (N : Nat) (P : List Int)
    (hP : P.Perm (ascSeq N)) :
    ∃ fuel₁ r₁ fuel₂ r₂, ucs_start_search P fuel₁ = some r₁ ∧
      astar_start_search P fuel₂ = some r₂ ∧
      r₁.1.backwards_cost = r₂.1.backwards_cost ∧
      IsMinReach P (goal_of P) r₁.1.backwards_cost := by
  have hgoal : goal_of P = ascSeq N := goal_of_eq_ascSeq hP
  have hreach : ∃ m, ReachN P m (goal_of P) := by
    rw [hgoal]
    exact reach_sorted_asc N P hP
  obtain ⟨fuel₁, node₁, st₁, hsome₁⟩ := search_loop_terminates ucs_key ucs_hfun
    P (goal_of P) ucs_Hkey ucs_Hcons hreach (init_state (ucs_root P))
    (init_inv ucs_hfun P (goal_of P))
  obtain ⟨fuel₂, node₂, st₂, hsome₂⟩ := search_loop_terminates astar_key
    calculate_heuristic_value P (goal_of P) astar_Hkey astar_Hcons hreach
    (init_state (astar_root P)) (init_inv calculate_heuristic_value P (goal_of P))
  obtain ⟨hv₁, hg₁, hopt₁⟩ := search_loop_some ucs_key ucs_hfun P (goal_of P)
    ucs_Hkey ucs_Hcons fuel₁ (init_state (ucs_root P)) node₁ st₁
    (init_inv ucs_hfun P (goal_of P)) hsome₁
  obtain ⟨hv₂, hg₂, hopt₂⟩ := search_loop_some astar_key
    calculate_heuristic_value P (goal_of P) astar_Hkey astar_Hcons fuel₂
    (init_state (astar_root P)) node₂ st₂
    (init_inv calculate_heuristic_value P (goal_of P)) hsome₂
  have hr₁ : ReachN P node₁.backwards_cost (goal_of P) := by
    have h := hv₁.reach
    rw [hg₁] at h
    exact h
  have hr₂ : ReachN P node₂.backwards_cost (goal_of P) := by
    have h := hv₂.reach
    rw [hg₂] at h
    exact h
  refine ⟨fuel₁, (node₁, st₁), fuel₂, (node₂, st₂), hsome₁, hsome₂, ?_, ?_, ?_⟩
  · exact Nat.le_antisymm (hopt₁ _ hr₂) (hopt₂ _ hr₁)
  · exact hr₁
  · exact hopt₁

/-- Witness for C1 at `P = [2, 1]`. -/
theorem c1_ucs_astar_same_cost_witness :
    ([2, 1] : List Int).Perm (ascSeq 2) ∧
      (∃ fuel₁ r₁ fuel₂ r₂, ucs_start_search [2, 1] fuel₁ = some r₁ ∧
        astar_start_search [2, 1] fuel₂ = some r₂ ∧
        r₁.1.backwards_cost = r₂.1.backwards_cost ∧
        IsMinReach [2, 1] (goal_of [2, 1]) r₁.1.backwards_cost) :=
  ⟨by decide, c1_ucs_astar_same_cost 2 [2, 1] (by decide)⟩

/-! ### C2: validity of the returned path -/

/-- C2: whatever node either search returns on a permutation `P` of `1..N`:
its path starts at `P`, ends at the ascending stack `[1..N]`, every adjacent
pair of path states is one flip apart with length `k ∈ [2, N]` (each state
has length `N`), and the path length is the cost plus one. -/
theorem c2_returned_path_valid (N : Nat) (P : List Int)
    (hP : P.Perm (ascSeq N)) :
    (∀ fuel node st1, ucs_start_search P fuel = some (node, st1) →
      node.path.head? = some P ∧ node.path.getLast? = some (ascSeq N) ∧
      node.path.Chain' FlipStep ∧ (∀ s ∈ node.path, s.length = N) ∧
      node.path.length = node.backwards_cost + 1) ∧
    (∀ fuel node st1, astar_start_search P fuel = some (node, st1) →
      node.path.head? = some P ∧ node.path.getLast? = some (ascSeq N) ∧
      node.path.Chain' FlipStep ∧ (∀ s ∈ node.path, s.length = N) ∧
      node.path.length = node.backwards_cost + 1) := by
  have hgoal : goal_of P = ascSeq N := goal_of_eq_ascSeq hP
  have hlenP : P.length = N := by
    rw [hP.length_eq]
    unfold ascSeq
    simp
  constructor
  · intro fuel node st1 hsome
    obtain ⟨hv, hg, _⟩ := search_loop_some ucs_key ucs_hfun P (goal_of P)
      ucs_Hkey ucs_Hcons fuel (init_state (ucs_root P)) node st1
      (init_inv ucs_hfun P (goal_of P)) hsome
    refine ⟨hv.head, ?_, hv.chain, ?_, hv.len⟩
    · rw [hv.last, hg, hgoal]
    · intro s hs
      have hperm := chain_all_perm node.path hv.chain P hv.head s hs
      rw [hperm.length_eq]
      exact hlenP
  · intro fuel node st1 hsome
    obtain ⟨hv, hg, _⟩ := search_loop_some astar_key calculate_heuristic_value
      P (goal_of P) astar_Hkey astar_Hcons fuel (init_state (astar_root P))
      node st1 (init_inv calculate_heuristic_value P (goal_of P)) hsome
    refine ⟨hv.head, ?_, hv.chain, ?_, hv.len⟩
    · rw [hv.last, hg, hgoal]
    · intro s hs
      have hperm := chain_all_perm node.path hv.chain P hv.head s hs
      rw [hperm.length_eq]
      exact hlenP

/-- Witness for C2 at `P = [2, 1]`. -/
theorem c2_returned_path_valid_witness :
    ([2, 1] : List Int).Perm (ascSeq 2) ∧
      ((∀ fuel node st1, ucs_start_search [2, 1] fuel = some (node, st1) →
        node.path.head? = some [2, 1] ∧
        node.path.getLast? = some (ascSeq 2) ∧
        node.path.Chain' FlipStep ∧ (∀ s ∈ node.path, s.length = 2) ∧
        node.path.length = node.backwards_cost + 1) ∧
      (∀ fuel node st1, astar_start_search [2, 1] fuel = some (node, st1) →
        node.path.head? = some [2, 1] ∧
        node.path.getLast? = some (ascSeq 2) ∧
        node.path.Chain' FlipStep ∧ (∀ s ∈ node.path, s.length = 2) ∧
        node.path.length = node.backwards_cost + 1)) :=
  ⟨by decide, c2_returned_path_valid 2 [2, 1] (by decide)⟩

/-! ### C6: frontier and closed-list discipline -/

/-- C6: at every loop head of either search, the frontier holds at most one
node per stack, closed stacks are pairwise distinct (no state is expanded
twice) and disjoint from the frontier, and a generated candidate whose stack
is already closed is discarded unchanged — whatever its cost. -/
theorem c6_dedup_and_closed_discard (P : List Int) :
    (∀ k st', run_states ucs_key ucs_hfun (goal_of P) k
        (init_state (ucs_root P)) = some st' →
      st'.expanded.Pairwise (fun a b => a.stack ≠ b.stack) ∧
      st'.traversed.Pairwise (fun a b => a.stack ≠ b.stack) ∧
      (∀ n ∈ st'.expanded, ∀ t ∈ st'.traversed, n.stack ≠ t.stack) ∧
      (∀ c : Node, stackMem st'.traversed c.stack = true →
        merge_new_node ucs_key st' c = st')) ∧
    (∀ k st', run_states astar_key calculate_heuristic_value (goal_of P) k
        (init_state (astar_root P)) = some st' →
      st'.expanded.Pairwise (fun a b => a.stack ≠ b.stack) ∧
      st'.traversed.Pairwise (fun a b => a.stack ≠ b.stack) ∧
      (∀ n ∈ st'.expanded, ∀ t ∈ st'.traversed, n.stack ≠ t.stack) ∧
      (∀ c : Node, stackMem st'.traversed c.stack = true →
        merge_new_node astar_key st' c = st')) := by
  constructor
  · intro k st' hrun
    have hInv := run_states_inv ucs_key ucs_hfun P (goal_of P) ucs_Hkey
      ucs_Hcons k (init_state (ucs_root P)) st'
      (init_inv ucs_hfun P (goal_of P)) hrun
    exact ⟨hInv.nodupExp, hInv.nodupTrav, hInv.disj,
      fun c hc => merge_discard_closed ucs_key st' c hInv.disj hc⟩
  · intro k st' hrun
    have hInv := run_states_inv astar_key calculate_heuristic_value P
      (goal_of P) astar_Hkey astar_Hcons k (init_state (astar_root P)) st'
      (init_inv calculate_heuristic_value P (goal_of P)) hrun
    exact ⟨hInv.nodupExp, hInv.nodupTrav, hInv.disj,
      fun c hc => merge_discard_closed astar_key st' c hInv.disj hc⟩

/-- Witness for C6: the state after one UCS iteration on `[2, 1]`. -/
theorem c6_dedup_and_closed_discard_witness :
    run_states ucs_key ucs_hfun (goal_of [2, 1]) 1
        (init_state (ucs_root [2, 1]))
      = some ⟨[⟨[1, 2], 1, [[2, 1], [1, 2]], 0⟩], [⟨[2, 1], 0, [[2, 1]], 0⟩], 2⟩ ∧
    ((⟨[⟨[1, 2], 1, [[2, 1], [1, 2]], 0⟩], [⟨[2, 1], 0, [[2, 1]], 0⟩],
        2⟩ : SearchState).expanded.Pairwise (fun a b => a.stack ≠ b.stack) ∧
      (⟨[⟨[1, 2], 1, [[2, 1], [1, 2]], 0⟩], [⟨[2, 1], 0, [[2, 1]], 0⟩],
        2⟩ : SearchState).traversed.Pairwise (fun a b => a.stack ≠ b.stack) ∧
      (∀ n ∈ (⟨[⟨[1, 2], 1, [[2, 1], [1, 2]], 0⟩], [⟨[2, 1], 0, [[2, 1]], 0⟩],
          2⟩ : SearchState).expanded,
        ∀ t ∈ (⟨[⟨[1, 2], 1, [[2, 1], [1, 2]], 0⟩], [⟨[2, 1], 0, [[2, 1]], 0⟩],
          2⟩ : SearchState).traversed, n.stack ≠ t.stack) ∧
      (∀ c : Node, stackMem (⟨[⟨[1, 2], 1, [[2, 1], [1, 2]], 0⟩],
          [⟨[2, 1], 0, [[2, 1]], 0⟩], 2⟩ : SearchState).traversed c.stack = true →
        merge_new_node ucs_key
          ⟨[⟨[1, 2], 1, [[2, 1], [1, 2]], 0⟩], [⟨[2, 1], 0, [[2, 1]], 0⟩], 2⟩ c
          = ⟨[⟨[1, 2], 1, [[2, 1], [1, 2]], 0⟩], [⟨[2, 1], 0, [[2, 1]], 0⟩], 2⟩)) :=
  ⟨by decide,
    (c6_dedup_and_closed_discard [2, 1]).1 1
      ⟨[⟨[1, 2], 1, [[2, 1], [1, 2]], 0⟩], [⟨[2, 1], 0, [[2, 1]], 0⟩], 2⟩
      (by decide)⟩

/-! ### C9: boundary cases -/

/-- C9: on `[1]` both searches return cost 0, path `[[1]]`, and counter 1;
on `[2, 1]` both return cost 1. -/
theorem c9_boundary_cases :
    (ucs_start_search [1] 1).map
        (fun r => (r.1.backwards_cost, r.1.path, r.2.nodes_expanded))
      = some (0, [[1]], 1) ∧
    (astar_start_search [1] 1).map
        (fun r => (r.1.backwards_cost, r.1.path, r.2.nodes_expanded))
      = some (0, [[1]], 1) ∧
    (ucs_start_search [2, 1] 2).map (fun r => r.1.backwards_cost) = some 1 ∧
    (astar_start_search [2, 1] 2).map (fun r => r.1.backwards_cost) = some 1 := by
  decide

end PancakeFlippingSort
